import Mathlib

/-!
Verification of the POC-aggregation pipeline (src/4-Download_POCs.py) of the
XuanyuanSword_AINuclei repository.

The pipeline is shallowly embedded: file contents are byte lists, the SHA-256
fingerprint is an abstract parameter `hash : Content → Nat` (the code only uses
the digest as an opaque identity key), YAML tag extraction is an abstract
parameter `tags : Content → Option (List String)` (`none` models a parse
exception, which `_process_poc` swallows), and the external nuclei checker is a
parameter `check : Content → CheckResult` (the code interprets only the exit
code / timeout / invocation error of the subprocess, which are determined by
the file fed to it).  Directory trees are association lists of entries keyed by
(directory, filename); a write to an existing key overwrites it, as
`shutil.copy` / `shutil.move` do.  Concurrency (worker pools plus
`as_completed`) is modelled by quantifying over the processing order: every
function below takes its work items as a list whose order is the effective
completion order.
-/

namespace NucleiPipeline

/-- A file's byte content. -/
abbrev Content := List Nat

/-- A file inside a cloned working copy (`CLONE_DIR`): its full path (the walk
key, unique per file), its bare filename (`file` in the source), and bytes. -/
structure SrcFile where
  path : String
  name : String
  content : Content
deriving DecidableEq, Repr

/-- A file inside the staging tree (`TMP_DIR`) or the corpus tree (`POC_DIR`):
a directory path relative to the tree root, a filename, and bytes. -/
structure Entry where
  dir : List String
  name : String
  content : Content
deriving DecidableEq, Repr

/-- The key under which a file lives: its relative directory and its name.
Writing to an existing key overwrites the previous content. -/
def entryKey (e : Entry) : List String × String := (e.dir, e.name)

/-- ASCII lower-casing of one character, as Python `str.lower` acts on the
ASCII tag names the pipeline handles. -/
def lowerChar (c : Char) : Char :=
  if 65 ≤ c.toNat ∧ c.toNat ≤ 90 then Char.ofNat (c.toNat + 32) else c

/-- `tag.lower()` from `_process_poc`. -/
def lowerStr (s : String) : String := ⟨s.data.map lowerChar⟩

/-- `file.endswith(('.yml', '.yaml'))`: the recognized rule-file extensions. -/
def ruleExt (name : String) : Bool :=
  List.isSuffixOf ".yml".data name.data || List.isSuffixOf ".yaml".data name.data

/-- Write entry `e` into a tree, overwriting any file at the same key
(`shutil.copy` / `shutil.move` semantics). -/
def fsPut (fs : List Entry) (e : Entry) : List Entry :=
  fs.filter (fun x => decide (entryKey x ≠ entryKey e)) ++ [e]

/-- A well-formed tree: no two files at the same key. -/
def keysNodup (fs : List Entry) : Prop := (fs.map entryKey).Nodup

/-! ## Stage 2: `enterprise_deduplication` (lines 143-159)

All `.yml`/`.yaml` files under `CLONE_DIR` are hashed in a thread pool; results
are consumed in `as_completed` order.  A file whose hash is already in
`hash_registry` is `os.remove`d; otherwise its hash is registered.  The input
list order is the completion order. -/

/-- One `as_completed` step of `enterprise_deduplication`: the accumulator is
(registered hashes, files surviving in the tree).  Non-rule files are never
hashed and never removed. -/
def dedupStep (hash : Content → Nat) (acc : List Nat × List SrcFile) (f : SrcFile) :
    List Nat × List SrcFile :=
  if ruleExt f.name then
    if hash f.content ∈ acc.1 then acc
    else (hash f.content :: acc.1, acc.2 ++ [f])
  else (acc.1, acc.2 ++ [f])

/-- `enterprise_deduplication`: the working-copy tree after the dedup stage,
given the hash-completion order of its files. -/
def enterpriseDeduplication (hash : Content → Nat) (files : List SrcFile) : List SrcFile :=
  (files.foldl (dedupStep hash) ([], [])).2

/-! ## Stage 3: `dynamic_categorization` / `_process_poc` (lines 161-198) -/

/-- The seeding of the dedup baseline (lines 164-168): the hash of every file
currently under `POC_DIR` (note: all files, with no extension filter). -/
def existingHashes (hash : Content → Nat) (corpus : List Entry) : List Nat :=
  corpus.map (fun e => hash e.content)

/-- The rule files of a working-copy tree (the candidate filter of
`dynamic_categorization`, line 174). -/
def ruleFiles (files : List SrcFile) : List SrcFile :=
  files.filter (fun f => ruleExt f.name)

/-- The per-tag copy loop of `_process_poc` (lines 193-196): for each declared
tag, copy the candidate to `TMP_DIR/tag.lower()/filename`. -/
def stageTags (c : SrcFile) (ts : List String) (fs : List Entry) : List Entry :=
  ts.foldl (fun fs t => fsPut fs ⟨[lowerStr t], c.name, c.content⟩) fs

/-- `_process_poc` (lines 183-198): skip the candidate if its hash is already
in the pre-run corpus baseline; otherwise parse its tags (a parse failure is
swallowed, staging nothing) and fan the file out to one staging directory per
tag. -/
def processPoc (hash : Content → Nat) (tags : Content → Option (List String))
    (existing : List Nat) (fs : List Entry) (c : SrcFile) : List Entry :=
  if hash c.content ∈ existing then fs
  else
    match tags c.content with
    | none => fs
    | some ts => stageTags c ts fs

/-- `dynamic_categorization` (lines 161-181): stage every rule file of the
(deduplicated) working-copy tree that is not already in the corpus by content,
into the per-tag staging tree.  The candidate list order is the effective
completion order of the copy operations. -/
def dynamicCategorization (hash : Content → Nat) (tags : Content → Option (List String))
    (corpus : List Entry) (clone : List SrcFile) : List Entry :=
  (ruleFiles clone).foldl (processPoc hash tags (existingHashes hash corpus)) []

/-! ## Stage 4: `enterprise_validation` / `_validate_poc` (lines 200-224) -/

/-- The outcome of one external checker invocation, as `_validate_poc`
distinguishes them: exit code zero, non-zero exit code, `TimeoutExpired`
(120-second limit), or any other invocation error. -/
inductive CheckResult
  | ok
  | nonzeroExit
  | timedOut
  | invocationError
deriving DecidableEq, Repr

/-- The `timeout=120` argument of the `subprocess.run` call in `_validate_poc`
(line 219), in seconds. -/
def VALIDATE_TIMEOUT_SECONDS : Nat := 120

/-- The `batch_size = 200` of `enterprise_validation` (line 206). -/
def VALIDATION_BATCH_SIZE : Nat := 200

/-- `_validate_poc` on one collected path (lines 212-224): find the staged
file, run the checker on it; exit code zero leaves it in place, anything else
(`returncode != 0`, timeout, invocation error) removes it from staging. -/
def validatePocStep (check : Content → CheckResult) (fs : List Entry)
    (p : List String × String) : List Entry :=
  match fs.find? (fun e => decide (entryKey e = p)) with
  | none => fs
  | some e =>
      if check e.content = CheckResult.ok then fs
      else fs.filter (fun x => decide (entryKey x ≠ p))

/-- Fuel-driven chunking of a list into consecutive slices of size `n`
(`range(0, len(xs), n)` slicing; the source always uses `n ≥ 1`). -/
def chunkedAux (n : Nat) : Nat → List α → List (List α)
  | 0, _ => []
  | _, [] => []
  | fuel + 1, x :: xs => (x :: xs.take (n - 1)) :: chunkedAux n fuel (xs.drop (n - 1))

/-- Consecutive batches of size `n`, as both `enterprise_validation` (batches
of 200 paths) and `dynamic_repo_discovery` (batches of `2 * GIT_PARALLEL`
tasks) slice their work lists. -/
def chunked (n : Nat) (xs : List α) : List (List α) := chunkedAux n xs.length xs

/-- `enterprise_validation` (lines 200-210): collect every staged path, then
process the paths in batches of 200, running `_validate_poc` on each; finally
the migration step is invoked separately (`_migrate_valid_files`). -/
def enterpriseValidation (check : Content → CheckResult) (staging : List Entry) :
    List Entry :=
  (chunked VALIDATION_BATCH_SIZE (staging.map entryKey)).foldl
    (fun fs batch => batch.foldl (validatePocStep check) fs) staging

/-! ## Stage 5: `_migrate_valid_files` / `_safe_move` / `generate_index`
(lines 226-254) -/

/-- `_migrate_valid_files` + `_safe_move` (lines 226-238): every file left in
the staging tree is moved to the same relative path under the corpus,
creating directories as needed and overwriting an existing file at that path
(`shutil.move`). -/
def migrateValidFiles (corpus staging : List Entry) : List Entry :=
  staging.foldl fsPut corpus

/-- `generate_index` (lines 248-254): rewrite `poc.txt` from scratch with the
corpus-relative path of every `.yml`/`.yaml` file under `POC_DIR`, one per
line. -/
def generateIndex (corpus : List Entry) : List (List String) :=
  corpus.filterMap (fun e => if ruleExt e.name then some (e.dir ++ [e.name]) else none)

/-- The `total` printed at the end of `__main__` (line 264): the number of all
files under `POC_DIR`, with no extension filter. -/
def totalCount (corpus : List Entry) : Nat := corpus.length

/-! ## The whole run (`__main__`, lines 256-268) -/

/-- The pipeline-visible filesystem state: the cloned working copies
(`CLONE_DIR`), the staging tree (`TMP_DIR`), and the corpus (`POC_DIR`). -/
structure PipeState where
  clone : List SrcFile
  staging : List Entry
  corpus : List Entry
deriving DecidableEq, Repr

/-- `_init_workspace` (lines 29-34): `TMP_DIR` is deleted and recreated empty
at startup; `CLONE_DIR` and `POC_DIR` are kept. -/
def stageInitWorkspace (s : PipeState) : PipeState := { s with staging := [] }

/-- Stage 2 as a state transformer. -/
def stageDedup (hash : Content → Nat) (s : PipeState) : PipeState :=
  { s with clone := enterpriseDeduplication hash s.clone }

/-- Stage 3 as a state transformer. -/
def stageCategorize (hash : Content → Nat) (tags : Content → Option (List String))
    (s : PipeState) : PipeState :=
  { s with staging := dynamicCategorization hash tags s.corpus s.clone }

/-- Stage 4 (validation only) as a state transformer. -/
def stageValidate (check : Content → CheckResult) (s : PipeState) : PipeState :=
  { s with staging := enterpriseValidation check s.staging }

/-- Stage 5 (migration) as a state transformer: `shutil.move` empties the
staging tree into the corpus. -/
def stageMigrate (s : PipeState) : PipeState :=
  { s with corpus := migrateValidFiles s.corpus s.staging, staging := [] }

/-- One full pipeline run over an already-synced working-copy tree: workspace
initialization, deduplication, categorization, validation, migration.  (The
sync stage only refreshes `CLONE_DIR`; a run "with no new remote content"
leaves `clone` as it was.) -/
def runPipeline (hash : Content → Nat) (tags : Content → Option (List String))
    (check : Content → CheckResult) (s : PipeState) : PipeState :=
  stageMigrate (stageValidate check (stageCategorize hash tags (stageDedup hash (stageInitWorkspace s))))

/-! ## Stage 1: `_async_git_ops` / `dynamic_repo_discovery` (lines 54-105) -/

/-- What one git clone/pull attempt can do, as `_async_git_ops` observes it:
the subprocess completes with some exit code, or the invocation raises (the
`except` branch, which prints and retries). -/
inductive AttemptOut
  | exitCode (rc : Int)
  | raised
deriving DecidableEq, Repr

/-- The two git operations `_async_git_ops` can run. -/
inductive GitCmd
  | pull
  | clone
deriving DecidableEq, Repr

/-- The operation selection of `_async_git_ops` (lines 69-81): `git pull` when
the working copy directory already exists, `git clone` otherwise. -/
def gitOpFor (wcExists : Bool) : GitCmd := if wcExists then GitCmd.pull else GitCmd.clone

/-- The observable result of one `_async_git_ops` call: how many attempts ran,
which backoff sleeps happened (in order, in seconds), and whether an attempt
returned exit code zero. -/
structure GitTrace where
  attempts : Nat
  sleeps : List Nat
  success : Bool
deriving DecidableEq, Repr

/-- The `for retry in range(3)` loop of `_async_git_ops` (lines 67-87), with
`outcome i` the result of the attempt at loop index `i`.  Exit code zero
returns immediately; a non-zero exit code sleeps `2 ** retry` seconds and
retries; an exception is caught and printed, and the loop continues without
sleeping (the `await asyncio.sleep` sits inside the `try`, after the point
where the exception was thrown).  Exhausting the loop returns normally. -/
def asyncGitOpsLoop (outcome : Nat → AttemptOut) : Nat → Nat → List Nat → GitTrace
  | _, 0, acc => ⟨3, acc, false⟩
  | i, fuel + 1, acc =>
      match outcome i with
      | AttemptOut.exitCode rc =>
          if rc = 0 then ⟨i + 1, acc, true⟩
          else asyncGitOpsLoop outcome (i + 1) fuel (acc ++ [2 ^ i])
      | AttemptOut.raised => asyncGitOpsLoop outcome (i + 1) fuel acc

/-- `_async_git_ops` for one source URL: at most 3 attempts. -/
def asyncGitOps (outcome : Nat → AttemptOut) : GitTrace :=
  asyncGitOpsLoop outcome 0 3 []

/-- The sleep `_async_git_ops` performs after the attempt at loop index `i`,
if any: `2 ** i` seconds after a non-zero exit code, none after a success
return or a caught exception. -/
def sleepOf (outcome : Nat → AttemptOut) (i : Nat) : Option Nat :=
  match outcome i with
  | AttemptOut.exitCode rc => if rc = 0 then none else some (2 ^ i)
  | AttemptOut.raised => none

/-- `batch_size = self.config['GIT_PARALLEL'] * 2` (line 103). -/
def syncBatchSize (gitParallel : Nat) : Nat := gitParallel * 2

/-- The dispatch schedule of `dynamic_repo_discovery` (lines 102-105): the
sync tasks are sliced into consecutive batches of `2 * GIT_PARALLEL`; each
batch is `asyncio.gather`ed to completion before the next is dispatched, so a
batch is the set of operations simultaneously in flight. -/
def syncBatches (gitParallel : Nat) (tasks : List String) : List (List String) :=
  chunked (syncBatchSize gitParallel) tasks

/-! ## Failure-propagation variants (claim C9)

`enterprise_deduplication` retrieves each hash future with `future.result()`
(line 155), which re-raises any exception the hashing of that file threw;
`__main__` catches only `KeyboardInterrupt`, so such an exception aborts the
run.  `_migrate_valid_files` submits each `_safe_move` and never retrieves the
result, so a failed move is silently dropped and the run continues. -/

/-- Whether an `Except` computation completed without raising. -/
def exceptOk {ε α : Type} : Except ε α → Bool
  | Except.ok _ => true
  | Except.error _ => false

/-- One `as_completed` step of `enterprise_deduplication` with a fallible
hash primitive (`hashE f = .error msg` models `_calculate_sha256` raising on
file `f`): `future.result()` re-raises the error. -/
def dedupStepE (hashE : SrcFile → Except String Nat)
    (acc : List Nat × List SrcFile) (f : SrcFile) :
    Except String (List Nat × List SrcFile) :=
  if ruleExt f.name then
    match hashE f with
    | Except.error msg => Except.error msg
    | Except.ok h =>
        if h ∈ acc.1 then Except.ok acc
        else Except.ok (h :: acc.1, acc.2 ++ [f])
  else Except.ok (acc.1, acc.2 ++ [f])

/-- `enterprise_deduplication` with a fallible hash primitive: the first hash
error in completion order propagates out of the stage; `__main__` does not
catch it, so the run aborts. -/
def enterpriseDeduplicationE (hashE : SrcFile → Except String Nat)
    (files : List SrcFile) : Except String (List SrcFile) :=
  match files.foldlM (dedupStepE hashE) ([], []) with
  | Except.error msg => Except.error msg
  | Except.ok acc => Except.ok acc.2

/-- `_migrate_valid_files` with a fallible move primitive (`moveOk e = false`
models `_safe_move` raising on file `e`): the submitted future's result is
never read, so the failed file is simply not moved and every other file is
still processed; the function always returns. -/
def migrateValidFilesF (moveOk : Entry → Bool) (corpus staging : List Entry) :
    List Entry :=
  staging.foldl (fun c e => if moveOk e then fsPut c e else c) corpus

/-! ## `__main__` (lines 256-268) -/

/-- The stage sequence `__main__` runs after construction (sync touches only
network state and `CLONE_DIR` through the git subprocesses; its filesystem
effect is folded into the initial `clone` field). -/
def pipelineStages (hash : Content → Nat) (tags : Content → Option (List String))
    (check : Content → CheckResult) : List (PipeState → PipeState) :=
  [stageInitWorkspace, stageDedup hash, stageCategorize hash tags,
    stageValidate check, stageMigrate]

/-- The filesystem state after the first `k` stages of a run. -/
def runUpTo (hash : Content → Nat) (tags : Content → Option (List String))
    (check : Content → CheckResult) (s0 : PipeState) (k : Nat) : PipeState :=
  ((pipelineStages hash tags check).take k).foldl (fun s f => f s) s0

/-- The `except KeyboardInterrupt` handler (lines 266-268): remove the whole
staging tree (`shutil.rmtree(TMP_DIR)`), touch nothing else. -/
def interruptCleanup (s : PipeState) : PipeState := { s with staging := [] }

/-- `__main__`: either the run completes all stages and exits 0 after printing
the corpus file count, or an interrupt lands after `k` stages, the handler
removes the staging tree and the process exits 1. -/
def mainRun (hash : Content → Nat) (tags : Content → Option (List String))
    (check : Content → CheckResult) (s0 : PipeState) (interruptAfter : Option Nat) :
    PipeState × Nat :=
  match interruptAfter with
  | some k => (interruptCleanup (runUpTo hash tags check s0 k), 1)
  | none => (runUpTo hash tags check s0 5, 0)

/-! ## Basic tree lemmas -/

theorem mem_fsPut_self (fs : List Entry) (e : Entry) : e ∈ fsPut fs e := by
  simp [fsPut]

theorem mem_fsPut_of_mem {fs : List Entry} {e x : Entry} (he : e ∈ fs)
    (h : x = e ∨ entryKey x ≠ entryKey e) : e ∈ fsPut fs x := by
  rcases h with rfl | h
  · exact mem_fsPut_self fs x
  · simp only [fsPut, List.mem_append, List.mem_filter, decide_eq_true_eq]
    exact Or.inl ⟨he, fun hk => h hk.symm⟩

theorem mem_of_mem_fsPut {fs : List Entry} {e x : Entry} (h : e ∈ fsPut fs x) :
    e ∈ fs ∨ e = x := by
  simp only [fsPut, List.mem_append, List.mem_filter, List.mem_singleton] at h
  rcases h with ⟨h, _⟩ | h
  · exact Or.inl h
  · exact Or.inr h

/-- Generic fact: in a list whose image under `f` has no duplicates, elements
of the suffix after an occurrence of `c` have a different image from `c`. -/
theorem map_nodup_notin_suffix {α β : Type} {f : α → β} {l₁ l₂ : List α} {c : α}
    (h : ((l₁ ++ c :: l₂).map f).Nodup) : ∀ x ∈ l₂, f x ≠ f c := by
  intro x hx hEq
  rw [List.map_append, List.nodup_append] at h
  have h2 := h.2.1
  rw [List.map_cons, List.nodup_cons] at h2
  exact h2.1 (List.mem_map.mpr ⟨x, hx, hEq⟩)

theorem keysNodup_fsPut {fs : List Entry} (h : keysNodup fs) (x : Entry) :
    keysNodup (fsPut fs x) := by
  unfold keysNodup fsPut
  rw [List.map_append, List.nodup_append]
  refine ⟨h.sublist (List.Sublist.map entryKey (List.filter_sublist fs)), by simp, ?_⟩
  intro a ha hb
  simp only [List.map_cons, List.map_nil, List.mem_singleton] at hb
  rcases List.mem_map.mp ha with ⟨y, hy, rfl⟩
  rcases List.mem_filter.mp hy with ⟨_, hkey⟩
  exact (decide_eq_true_eq.mp hkey) (hb ▸ rfl)

theorem mem_foldl_fsPut_keep {fs : List Entry} {e : Entry} {l : List Entry}
    (he : e ∈ fs) (h : ∀ x ∈ l, x = e ∨ entryKey x ≠ entryKey e) :
    e ∈ l.foldl fsPut fs := by
  induction l generalizing fs with
  | nil => exact he
  | cons x xs ih =>
      exact ih (mem_fsPut_of_mem he (h x (by simp)))
        (fun y hy => h y (List.mem_cons_of_mem x hy))

theorem mem_of_mem_foldl_fsPut {l : List Entry} :
    ∀ {fs : List Entry} {e : Entry}, e ∈ l.foldl fsPut fs → e ∈ fs ∨ e ∈ l := by
  induction l with
  | nil => exact fun h => Or.inl h
  | cons x xs ih =>
      intro fs e h
      rcases ih h with h | h
      · rcases mem_of_mem_fsPut h with h | rfl
        · exact Or.inl h
        · exact Or.inr (by simp)
      · exact Or.inr (List.mem_cons_of_mem x h)

theorem mem_foldl_fsPut_of_keysNodup {l : List Entry} {e : Entry}
    (hl : keysNodup l) (he : e ∈ l) (fs : List Entry) : e ∈ l.foldl fsPut fs := by
  rcases List.append_of_mem he with ⟨l₁, l₂, rfl⟩
  rw [List.foldl_append, List.foldl_cons]
  exact mem_foldl_fsPut_keep (mem_fsPut_self _ e)
    (fun x hx => Or.inr (map_nodup_notin_suffix hl x hx))

theorem foldl_fsPut_of_append_keysNodup :
    ∀ {l acc : List Entry}, keysNodup (acc ++ l) → l.foldl fsPut acc = acc ++ l := by
  intro l
  induction l with
  | nil => intro acc _; simp
  | cons x xs ih =>
      intro acc h
      have hx : ∀ y ∈ acc, entryKey y ≠ entryKey x := by
        intro y hy hEq
        unfold keysNodup at h
        rw [List.map_append, List.nodup_append] at h
        exact h.2.2 (List.mem_map.mpr ⟨y, hy, rfl⟩)
          (by simp only [List.map_cons, List.mem_cons]; exact Or.inl hEq)
      have hput : fsPut acc x = acc ++ [x] := by
        unfold fsPut
        congr 1
        rw [List.filter_eq_self]
        intro y hy
        exact decide_eq_true_eq.mpr (hx y hy)
      rw [List.foldl_cons, hput, ih (by rwa [List.append_assoc, List.singleton_append]),
        List.append_assoc, List.singleton_append]

theorem keysNodup_filter {fs : List Entry} (h : keysNodup fs) (p : Entry → Bool) :
    keysNodup (fs.filter p) := by
  exact h.sublist (List.Sublist.map entryKey (List.filter_sublist fs))

/-! ## Categorization lemmas -/

theorem stageTags_src {c : SrcFile} {ts : List String} :
    ∀ {fs : List Entry} {e : Entry}, e ∈ stageTags c ts fs →
      e ∈ fs ∨ ∃ t ∈ ts, e = ⟨[lowerStr t], c.name, c.content⟩ := by
  induction ts with
  | nil => exact fun h => Or.inl h
  | cons t ts ih =>
      intro fs e h
      rcases ih h with h | ⟨u, hu, rfl⟩
      · rcases mem_of_mem_fsPut h with h | rfl
        · exact Or.inl h
        · exact Or.inr ⟨t, by simp, rfl⟩
      · exact Or.inr ⟨u, List.mem_cons_of_mem t hu, rfl⟩

theorem stageTags_keep_own {c : SrcFile} {ts : List String} :
    ∀ {fs : List Entry} {e : Entry}, e ∈ fs → e.name = c.name → e.content = c.content →
      e ∈ stageTags c ts fs := by
  induction ts with
  | nil => exact fun h _ _ => h
  | cons t ts ih =>
      intro fs e he hn hc
      refine ih ?_ hn hc
      refine mem_fsPut_of_mem he ?_
      by_cases hk : entryKey (⟨[lowerStr t], c.name, c.content⟩ : Entry) = entryKey e
      · left
        rcases e with ⟨d, n, co⟩
        simp only [entryKey, Prod.mk.injEq] at hk
        simp only at hn hc
        simp [hk.1, hk.2, hc]
      · exact Or.inr hk

theorem stageTags_mem {c : SrcFile} {ts : List String} {t : String} (ht : t ∈ ts) :
    ∀ (fs : List Entry), (⟨[lowerStr t], c.name, c.content⟩ : Entry) ∈ stageTags c ts fs := by
  induction ts with
  | nil => cases ht
  | cons a ts ih =>
      intro fs
      have hstep : stageTags c (a :: ts) fs
          = stageTags c ts (fsPut fs ⟨[lowerStr a], c.name, c.content⟩) := rfl
      rw [hstep]
      rcases List.mem_cons.mp ht with rfl | ht
      · exact stageTags_keep_own (mem_fsPut_self fs _) rfl rfl
      · exact ih ht _

theorem stageTags_keep_other {c : SrcFile} {ts : List String} :
    ∀ {fs : List Entry} {e : Entry}, e ∈ fs → e.name ≠ c.name → e ∈ stageTags c ts fs := by
  induction ts with
  | nil => exact fun h _ => h
  | cons t ts ih =>
      intro fs e he hn
      have hstep : stageTags c (t :: ts) fs
          = stageTags c ts (fsPut fs ⟨[lowerStr t], c.name, c.content⟩) := rfl
      rw [hstep]
      refine ih ?_ hn
      refine mem_fsPut_of_mem he (Or.inr ?_)
      intro hpair
      have h2 : c.name = e.name := congrArg Prod.snd hpair
      exact hn h2.symm

theorem keysNodup_stageTags {c : SrcFile} {ts : List String} :
    ∀ {fs : List Entry}, keysNodup fs → keysNodup (stageTags c ts fs) := by
  induction ts with
  | nil => exact fun h => h
  | cons t ts ih => exact fun h => ih (keysNodup_fsPut h _)

theorem processPoc_src {hash : Content → Nat} {tags : Content → Option (List String)}
    {ex : List Nat} {fs : List Entry} {c : SrcFile} {e : Entry}
    (h : e ∈ processPoc hash tags ex fs c) :
    e ∈ fs ∨ (hash c.content ∉ ex ∧ ∃ ts, tags c.content = some ts ∧
      ∃ t ∈ ts, e = ⟨[lowerStr t], c.name, c.content⟩) := by
  unfold processPoc at h
  by_cases hmem : hash c.content ∈ ex
  · rw [if_pos hmem] at h; exact Or.inl h
  · rw [if_neg hmem] at h
    cases htags : tags c.content with
    | none => rw [htags] at h; exact Or.inl h
    | some ts =>
        rw [htags] at h
        rcases stageTags_src h with h | ⟨t, ht, rfl⟩
        · exact Or.inl h
        · exact Or.inr ⟨hmem, ts, rfl, t, ht, rfl⟩

theorem processPoc_keep_other {hash : Content → Nat} {tags : Content → Option (List String)}
    {ex : List Nat} {fs : List Entry} {c : SrcFile} {e : Entry}
    (he : e ∈ fs) (hn : e.name ≠ c.name) : e ∈ processPoc hash tags ex fs c := by
  unfold processPoc
  by_cases hmem : hash c.content ∈ ex
  · rw [if_pos hmem]; exact he
  · rw [if_neg hmem]
    cases htags : tags c.content with
    | none => exact he
    | some ts => exact stageTags_keep_other he hn

theorem processPoc_stages {hash : Content → Nat} {tags : Content → Option (List String)}
    {ex : List Nat} {c : SrcFile} {ts : List String} {t : String}
    (hmem : hash c.content ∉ ex) (htags : tags c.content = some ts) (ht : t ∈ ts)
    (fs : List Entry) :
    (⟨[lowerStr t], c.name, c.content⟩ : Entry) ∈ processPoc hash tags ex fs c := by
  unfold processPoc
  rw [if_neg hmem, htags]
  exact stageTags_mem ht fs

theorem keysNodup_processPoc {hash : Content → Nat} {tags : Content → Option (List String)}
    {ex : List Nat} {fs : List Entry} {c : SrcFile}
    (h : keysNodup fs) : keysNodup (processPoc hash tags ex fs c) := by
  unfold processPoc
  by_cases hmem : hash c.content ∈ ex
  · rw [if_pos hmem]; exact h
  · rw [if_neg hmem]
    cases tags c.content with
    | none => exact h
    | some ts => exact keysNodup_stageTags h

theorem categorize_fold_src {hash : Content → Nat} {tags : Content → Option (List String)}
    {ex : List Nat} {l : List SrcFile} :
    ∀ {fs : List Entry} {e : Entry}, e ∈ l.foldl (processPoc hash tags ex) fs →
      e ∈ fs ∨ ∃ c ∈ l, hash c.content ∉ ex ∧ ∃ ts, tags c.content = some ts ∧
        ∃ t ∈ ts, e = ⟨[lowerStr t], c.name, c.content⟩ := by
  induction l with
  | nil => exact fun h => Or.inl h
  | cons c cs ih =>
      intro fs e h
      rcases ih h with h | ⟨c', hc', rest⟩
      · rcases processPoc_src h with h | ⟨hmem, ts, hts, t, ht, rfl⟩
        · exact Or.inl h
        · exact Or.inr ⟨c, by simp, hmem, ts, hts, t, ht, rfl⟩
      · exact Or.inr ⟨c', List.mem_cons_of_mem c hc', rest⟩

theorem categorize_fold_keep_other {hash : Content → Nat}
    {tags : Content → Option (List String)} {ex : List Nat} {l : List SrcFile} :
    ∀ {fs : List Entry} {e : Entry}, e ∈ fs → (∀ c ∈ l, c.name ≠ e.name) →
      e ∈ l.foldl (processPoc hash tags ex) fs := by
  induction l with
  | nil => exact fun h _ => h
  | cons c cs ih =>
      intro fs e he hn
      exact ih (processPoc_keep_other he (fun h => hn c (by simp) h.symm))
        (fun c' hc' => hn c' (List.mem_cons_of_mem c hc'))

theorem categorize_fold_stages {hash : Content → Nat}
    {tags : Content → Option (List String)} {ex : List Nat} {l : List SrcFile}
    {c : SrcFile} {ts : List String} {t : String}
    (hc : c ∈ l) (hnames : (l.map SrcFile.name).Nodup)
    (hmem : hash c.content ∉ ex) (htags : tags c.content = some ts) (ht : t ∈ ts)
    (fs : List Entry) :
    (⟨[lowerStr t], c.name, c.content⟩ : Entry) ∈ l.foldl (processPoc hash tags ex) fs := by
  rcases List.append_of_mem hc with ⟨l₁, l₂, rfl⟩
  rw [List.foldl_append, List.foldl_cons]
  exact categorize_fold_keep_other (processPoc_stages hmem htags ht _)
    (fun c' hc' => map_nodup_notin_suffix hnames c' hc')

theorem keysNodup_categorize_fold {hash : Content → Nat}
    {tags : Content → Option (List String)} {ex : List Nat} {l : List SrcFile} :
    ∀ {fs : List Entry}, keysNodup fs → keysNodup (l.foldl (processPoc hash tags ex) fs) := by
  induction l with
  | nil => exact fun h => h
  | cons c cs ih => exact fun h => ih (keysNodup_processPoc h)

theorem keysNodup_dynamicCategorization (hash : Content → Nat)
    (tags : Content → Option (List String)) (corpus : List Entry) (clone : List SrcFile) :
    keysNodup (dynamicCategorization hash tags corpus clone) :=
  keysNodup_categorize_fold (by simp [keysNodup])

/-! ## Deduplication lemmas -/

/-- The invariant of the `enterprise_deduplication` fold: every surviving rule
file's hash is registered, and surviving rule files have pairwise distinct
hashes. -/
def DedupInv (hash : Content → Nat) (acc : List Nat × List SrcFile) : Prop :=
  (∀ g ∈ acc.2, ruleExt g.name = true → hash g.content ∈ acc.1) ∧
    (acc.2.filter (fun f => ruleExt f.name)).Pairwise
      (fun f g => hash f.content ≠ hash g.content)

theorem dedupStep_inv {hash : Content → Nat} {acc : List Nat × List SrcFile}
    (h : DedupInv hash acc) (f : SrcFile) : DedupInv hash (dedupStep hash acc f) := by
  unfold dedupStep
  by_cases hrule : ruleExt f.name = true
  · rw [if_pos hrule]
    by_cases hmem : hash f.content ∈ acc.1
    · rw [if_pos hmem]; exact h
    · rw [if_neg hmem]
      constructor
      · intro g hg hgr
        rcases List.mem_append.mp hg with hg | hg
        · exact List.mem_cons_of_mem _ (h.1 g hg hgr)
        · rw [List.mem_singleton] at hg
          subst hg
          exact List.mem_cons_self _ _
      · simp only [List.filter_append, List.filter_cons, hrule, List.filter_nil]
        rw [List.pairwise_append]
        refine ⟨h.2, by simp, ?_⟩
        intro g hg x hx
        simp only [if_pos, List.mem_cons, List.not_mem_nil, or_false] at hx
        subst hx
        intro hEq
        rcases List.mem_filter.mp hg with ⟨hg2, hgr⟩
        exact hmem (hEq ▸ h.1 g hg2 hgr)
  · rw [if_neg hrule]
    constructor
    · intro g hg hgr
      rcases List.mem_append.mp hg with hg | hg
      · exact h.1 g hg hgr
      · rw [List.mem_singleton] at hg
        subst hg
        exact absurd hgr hrule
    · simp only [List.filter_append, List.filter_cons, hrule, List.filter_nil]
      simpa using h.2

theorem dedup_fold_inv {hash : Content → Nat} {l : List SrcFile} :
    ∀ {acc : List Nat × List SrcFile}, DedupInv hash acc →
      DedupInv hash (l.foldl (dedupStep hash) acc) := by
  induction l with
  | nil => exact fun h => h
  | cons f fs ih => exact fun h => ih (dedupStep_inv h f)

/-- After dedup, surviving rule files have pairwise distinct fingerprints. -/
theorem dedup_pairwise (hash : Content → Nat) (files : List SrcFile) :
    ((enterpriseDeduplication hash files).filter (fun f => ruleExt f.name)).Pairwise
      (fun f g => hash f.content ≠ hash g.content) := by
  have h : DedupInv hash (files.foldl (dedupStep hash) ([], [])) :=
    dedup_fold_inv ⟨by simp, by simp⟩
  exact h.2

theorem ruleFiles_dedup_pairwise (hash : Content → Nat) (files : List SrcFile) :
    (ruleFiles (enterpriseDeduplication hash files)).Pairwise
      (fun f g => hash f.content ≠ hash g.content) :=
  dedup_pairwise hash files

/-- If no rule file's hash is registered yet and the rule files of the input
have pairwise distinct hashes, the dedup fold deletes nothing. -/
theorem foldl_dedupStep_of_fresh {hash : Content → Nat} :
    ∀ (l : List SrcFile) (acc : List Nat × List SrcFile),
      (∀ f ∈ l, ruleExt f.name = true → hash f.content ∉ acc.1) →
      (l.filter (fun f => ruleExt f.name)).Pairwise
        (fun f g => hash f.content ≠ hash g.content) →
      (l.foldl (dedupStep hash) acc).2 = acc.2 ++ l := by
  intro l
  induction l with
  | nil => intro acc _ _; simp
  | cons f fs ih =>
      intro acc hfresh hpair
      rw [List.foldl_cons]
      by_cases hrule : ruleExt f.name = true
      · have hstep : dedupStep hash acc f = (hash f.content :: acc.1, acc.2 ++ [f]) := by
          unfold dedupStep
          rw [if_pos hrule, if_neg (hfresh f (by simp) hrule)]
        rw [hstep, ih (hash f.content :: acc.1, acc.2 ++ [f]) ?_ ?_]
        · simp
        · intro g hg hgr
          simp only [List.mem_cons]
          push_neg
          constructor
          · have hp := hpair
            rw [List.filter_cons, if_pos (by simpa using hrule)] at hp
            exact ((List.pairwise_cons.mp hp).1 g
              (List.mem_filter.mpr ⟨hg, hgr⟩)).symm
          · exact hfresh g (List.mem_cons_of_mem f hg) hgr
        · rw [List.filter_cons, if_pos (by simpa using hrule)] at hpair
          exact (List.pairwise_cons.mp hpair).2
      · have hstep : dedupStep hash acc f = (acc.1, acc.2 ++ [f]) := by
          unfold dedupStep
          rw [if_neg hrule]
        rw [hstep, ih (acc.1, acc.2 ++ [f]) ?_ ?_]
        · simp
        · exact fun g hg hgr => hfresh g (List.mem_cons_of_mem f hg) hgr
        · rw [List.filter_cons, if_neg (by simpa using hrule)] at hpair
          exact hpair

/-- Re-running dedup on an already-deduplicated tree deletes nothing. -/
theorem dedup_fixpoint (hash : Content → Nat) (files : List SrcFile) :
    enterpriseDeduplication hash (enterpriseDeduplication hash files) =
      enterpriseDeduplication hash files := by
  have h := foldl_dedupStep_of_fresh (enterpriseDeduplication hash files) ([], [])
    (by simp) (dedup_pairwise hash files)
  calc enterpriseDeduplication hash (enterpriseDeduplication hash files)
      = ((enterpriseDeduplication hash files).foldl (dedupStep hash) ([], [])).2 := rfl
    _ = [] ++ enterpriseDeduplication hash files := h
    _ = enterpriseDeduplication hash files := by simp

/-! ## Chunking lemmas -/

theorem chunkedAux_flatten {α : Type} (n : Nat) :
    ∀ (fuel : Nat) (xs : List α), xs.length ≤ fuel → (chunkedAux n fuel xs).flatten = xs := by
  intro fuel
  induction fuel with
  | zero =>
      intro xs hlen
      rw [List.length_eq_zero.mp (Nat.le_zero.mp hlen)]
      simp [chunkedAux]
  | succ fuel ih =>
      intro xs hlen
      cases xs with
      | nil => simp [chunkedAux]
      | cons x t =>
          simp only [chunkedAux, List.flatten_cons]
          rw [ih (t.drop (n - 1)) ?_]
          · rw [List.cons_append, List.take_append_drop]
          · calc (t.drop (n - 1)).length ≤ t.length := by
                  rw [List.length_drop]; omega
              _ ≤ fuel := by simpa using Nat.succ_le_succ_iff.mp hlen

theorem chunked_flatten {α : Type} (n : Nat) (xs : List α) : (chunked n xs).flatten = xs :=
  chunkedAux_flatten n xs.length xs (Nat.le_refl _)

theorem chunkedAux_length_le {α : Type} {n : Nat} (hn : 0 < n) :
    ∀ (fuel : Nat) (xs : List α) (b : List α), b ∈ chunkedAux n fuel xs → b.length ≤ n := by
  intro fuel
  induction fuel with
  | zero => intro xs b hb; simp [chunkedAux] at hb
  | succ fuel ih =>
      intro xs b hb
      cases xs with
      | nil => simp [chunkedAux] at hb
      | cons x t =>
          simp only [chunkedAux, List.mem_cons] at hb
          rcases hb with rfl | hb
          · simp only [List.length_cons, List.length_take]
            omega
          · exact ih _ b hb

theorem chunked_length_le {α : Type} {n : Nat} (hn : 0 < n) (xs : List α)
    (b : List α) (hb : b ∈ chunked n xs) : b.length ≤ n :=
  chunkedAux_length_le hn xs.length xs b hb

theorem chunkedAux_eq_nil {α : Type} (n fuel : Nat) :
    chunkedAux n fuel ([] : List α) = [] := by
  cases fuel <;> simp [chunkedAux]

theorem chunkedAux_full {α : Type} {n : Nat} (hn : 0 < n) :
    ∀ (fuel : Nat) (xs : List α) (b : List α),
      b ∈ (chunkedAux n fuel xs).dropLast → b.length = n := by
  intro fuel
  induction fuel with
  | zero => intro xs b hb; simp [chunkedAux] at hb
  | succ fuel ih =>
      intro xs b hb
      cases xs with
      | nil => simp [chunkedAux] at hb
      | cons x t =>
          simp only [chunkedAux] at hb
          cases hrest : chunkedAux n fuel (t.drop (n - 1)) with
          | nil => rw [hrest] at hb; simp at hb
          | cons r rs =>
              rw [hrest, List.dropLast_cons_of_ne_nil (by simp), List.mem_cons] at hb
              rcases hb with rfl | hb
              · have hne : t.drop (n - 1) ≠ [] := by
                  intro hcon
                  rw [hcon, chunkedAux_eq_nil] at hrest
                  exact List.cons_ne_nil r rs hrest.symm
                have hlen : n - 1 ≤ t.length := by
                  by_contra hcon
                  push_neg at hcon
                  exact hne (List.drop_eq_nil_of_le (Nat.le_of_lt hcon))
                simp only [List.length_cons, List.length_take]
                omega
              · exact ih _ b (by rw [hrest]; exact hb)

theorem chunked_full {α : Type} {n : Nat} (hn : 0 < n) (xs : List α)
    (b : List α) (hb : b ∈ (chunked n xs).dropLast) : b.length = n :=
  chunkedAux_full hn xs.length xs b hb

/-- Folding batch-by-batch is folding over the concatenation of the batches. -/
theorem foldl_batches {α β : Type} (g : β → α → β) :
    ∀ (L : List (List α)) (b : β),
      L.foldl (fun acc batch => batch.foldl g acc) b = L.flatten.foldl g b := by
  intro L
  induction L with
  | nil => intro b; simp
  | cons c cs ih =>
      intro b
      rw [List.foldl_cons, ih, List.flatten_cons, List.foldl_append]

/-! ## Validation lemmas -/

theorem find?_middle {α : Type} {p : α → Bool} {e : α} :
    ∀ (l₁ l₂ : List α), (∀ x ∈ l₁, p x = false) → p e = true →
      (l₁ ++ e :: l₂).find? p = some e := by
  intro l₁
  induction l₁ with
  | nil => intro l₂ _ hp; simp [List.find?_cons_of_pos _ hp]
  | cons x t ih =>
      intro l₂ hl hp
      rw [List.cons_append, List.find?_cons_of_neg _ (by simp [hl x (by simp)])]
      exact ih l₂ (fun y hy => hl y (List.mem_cons_of_mem x hy)) hp

theorem validatePocStep_found {check : Content → CheckResult} {fs : List Entry}
    {p : List String × String} {e : Entry}
    (hfind : fs.find? (fun x => decide (entryKey x = p)) = some e) :
    validatePocStep check fs p =
      if check e.content = CheckResult.ok then fs
      else fs.filter (fun x => decide (entryKey x ≠ p)) := by
  unfold validatePocStep
  rw [hfind]

/-- Processing the collected staging paths one `_validate_poc` at a time, over
a tree with unique keys, keeps exactly the files the checker accepts. -/
theorem runPaths_filter {check : Content → CheckResult} :
    ∀ (l₂ l₁ : List Entry), keysNodup (l₁ ++ l₂) →
      (l₂.map entryKey).foldl (validatePocStep check) (l₁ ++ l₂) =
        l₁ ++ l₂.filter (fun e => decide (check e.content = CheckResult.ok)) := by
  intro l₂
  induction l₂ with
  | nil => intro l₁ _; simp
  | cons e rest ih =>
      intro l₁ hnd
      have hl₁ : ∀ x ∈ l₁, entryKey x ≠ entryKey e := by
        intro x hx hEq
        unfold keysNodup at hnd
        rw [List.map_append, List.nodup_append] at hnd
        exact hnd.2.2 (List.mem_map.mpr ⟨x, hx, rfl⟩)
          (by simp only [List.map_cons, List.mem_cons]; exact Or.inl hEq)
      have hrest : ∀ x ∈ rest, entryKey x ≠ entryKey e := by
        intro x hx hEq
        unfold keysNodup at hnd
        rw [List.map_append, List.map_cons, List.nodup_append] at hnd
        have h2 := hnd.2.1
        rw [List.nodup_cons] at h2
        exact h2.1 (List.mem_map.mpr ⟨x, hx, hEq⟩)
      rw [List.map_cons, List.foldl_cons]
      have hfind : (l₁ ++ e :: rest).find? (fun x => decide (entryKey x = entryKey e))
          = some e := by
        refine find?_middle l₁ rest ?_ (by simp)
        intro x hx
        simp [hl₁ x hx]
      by_cases hok : check e.content = CheckResult.ok
      · have hstep : validatePocStep check (l₁ ++ e :: rest) (entryKey e)
            = l₁ ++ e :: rest := by
          rw [validatePocStep_found hfind, if_pos hok]
        rw [hstep]
        have hrw : l₁ ++ e :: rest = (l₁ ++ [e]) ++ rest := by
          rw [List.append_assoc, List.singleton_append]
        rw [hrw, ih (l₁ ++ [e]) (by rwa [← hrw]), List.filter_cons,
          if_pos (by simpa using hok), List.append_assoc, List.singleton_append]
      · have hstep : validatePocStep check (l₁ ++ e :: rest) (entryKey e)
            = l₁ ++ rest := by
          rw [validatePocStep_found hfind, if_neg hok, List.filter_append,
            List.filter_cons]
          simp only [decide_not, ne_eq, decide_True, Bool.not_true, Bool.false_eq_true,
            if_false]
          rw [List.filter_eq_self.mpr (fun x hx => by simpa using hl₁ x hx),
            List.filter_eq_self.mpr (fun x hx => by simpa using hrest x hx)]
        rw [hstep, ih l₁ ?_, List.filter_cons, if_neg (by simpa using hok)]
        have hsub : List.Sublist (l₁ ++ rest) (l₁ ++ e :: rest) :=
          List.Sublist.append_left (List.sublist_cons_self e rest) l₁
        exact (List.Nodup.sublist (List.Sublist.map entryKey hsub)) hnd

/-- `enterprise_validation` over a well-formed staging tree keeps exactly the
files the external checker accepts (exit code zero) and removes every file
whose check exits non-zero, times out, or errors. -/
theorem enterpriseValidation_eq_filter {check : Content → CheckResult}
    {staging : List Entry} (h : keysNodup staging) :
    enterpriseValidation check staging =
      staging.filter (fun e => decide (check e.content = CheckResult.ok)) := by
  unfold enterpriseValidation
  rw [foldl_batches, chunked_flatten]
  have h2 := @runPaths_filter check staging [] (by simpa using h)
  simpa using h2

theorem mem_enterpriseValidation_iff {check : Content → CheckResult}
    {staging : List Entry} (h : keysNodup staging) (e : Entry) :
    e ∈ enterpriseValidation check staging ↔
      e ∈ staging ∧ check e.content = CheckResult.ok := by
  rw [enterpriseValidation_eq_filter h, List.mem_filter]
  simp

theorem keysNodup_enterpriseValidation {check : Content → CheckResult}
    {staging : List Entry} (h : keysNodup staging) :
    keysNodup (enterpriseValidation check staging) := by
  rw [enterpriseValidation_eq_filter h]
  exact keysNodup_filter h _

/-! ## Pipeline composition helpers and concrete inputs -/

theorem runPipeline_clone (hash : Content → Nat) (tags : Content → Option (List String))
    (check : Content → CheckResult) (s0 : PipeState) :
    (runPipeline hash tags check s0).clone = enterpriseDeduplication hash s0.clone := rfl

theorem runPipeline_staging (hash : Content → Nat) (tags : Content → Option (List String))
    (check : Content → CheckResult) (s0 : PipeState) :
    (runPipeline hash tags check s0).staging = [] := rfl

theorem runPipeline_corpus (hash : Content → Nat) (tags : Content → Option (List String))
    (check : Content → CheckResult) (s0 : PipeState) :
    (runPipeline hash tags check s0).corpus =
      migrateValidFiles s0.corpus (enterpriseValidation check
        (dynamicCategorization hash tags s0.corpus
          (enterpriseDeduplication hash s0.clone))) := rfl

theorem pipeState_ext {x y : PipeState} (h1 : x.clone = y.clone)
    (h2 : x.staging = y.staging) (h3 : x.corpus = y.corpus) : x = y := by
  cases x; cases y; simp_all

theorem dynamicCategorization_src {hash : Content → Nat}
    {tags : Content → Option (List String)} {corpus : List Entry}
    {clone : List SrcFile} {e : Entry}
    (h : e ∈ dynamicCategorization hash tags corpus clone) :
    ∃ c ∈ ruleFiles clone, hash c.content ∉ existingHashes hash corpus ∧
      ∃ ts, tags c.content = some ts ∧
        ∃ t ∈ ts, e = ⟨[lowerStr t], c.name, c.content⟩ := by
  rcases categorize_fold_src h with h | h
  · cases h
  · exact h

theorem dynamicCategorization_stages {hash : Content → Nat}
    {tags : Content → Option (List String)} {corpus : List Entry}
    {clone : List SrcFile} {c : SrcFile} {ts : List String} {t : String}
    (hc : c ∈ ruleFiles clone) (hnames : ((ruleFiles clone).map SrcFile.name).Nodup)
    (hmem : hash c.content ∉ existingHashes hash corpus)
    (htags : tags c.content = some ts) (ht : t ∈ ts) :
    (⟨[lowerStr t], c.name, c.content⟩ : Entry) ∈
      dynamicCategorization hash tags corpus clone :=
  categorize_fold_stages hc hnames hmem htags ht []

/-- The symmetry of fingerprint distinctness, used with `List.Pairwise.forall`. -/
theorem hash_ne_symm (hash : Content → Nat) :
    Symmetric (fun f g : SrcFile => hash f.content ≠ hash g.content) :=
  fun _ _ h hEq => h hEq.symm

/-- A concrete stand-in for the SHA-256 digest in executable scenarios. -/
def demoHash (c : Content) : Nat := c.headD 0

/-- A checker that accepts every file. -/
def checkAllOk : Content → CheckResult := fun _ => CheckResult.ok

/-! ## Claim C10 -/

/-- Two clone-tree rule files with the same content (hence the same
fingerprint) under different paths. -/
def dupA : SrcFile := ⟨"repo1/x.yml", "x.yml", [5]⟩

def dupB : SrcFile := ⟨"repo2/x.yml", "x.yml", [5]⟩

/-- C10 (confirmed): after `enterprise_deduplication`, surviving rule files
have pairwise distinct fingerprints (at most one rule file per fingerprint
remains in the working-copy tree); later-processed duplicates are deleted, so
the stage mutates the tree, and which duplicate survives depends on the
hash-completion order, not on source or path: the same pair of files, hashed
in the two opposite orders, leaves the one that completed first. -/
theorem dedup_unique_fingerprint_and_order_dependent :
    (∀ (hash : Content → Nat) (files : List SrcFile),
      ((enterpriseDeduplication hash files).filter (fun f => ruleExt f.name)).Pairwise
        (fun f g => hash f.content ≠ hash g.content))
    ∧ enterpriseDeduplication demoHash [dupA, dupB] = [dupA]
    ∧ enterpriseDeduplication demoHash [dupB, dupA] = [dupB]
    ∧ dupA.path ≠ dupB.path
    ∧ demoHash dupA.content = demoHash dupB.content := by
  refine ⟨fun hash files => dedup_pairwise hash files, by decide, by decide, by decide, rfl⟩

/-! ## Claim C1 -/

/-- One candidate rule file declaring two tags. -/
def fanSrc : SrcFile := ⟨"repo/f.yaml", "f.yaml", [1]⟩

/-- Tag extraction for the fan-out scenario: content `[1]` declares tags
`A` and `b`. -/
def fanTags : Content → Option (List String) :=
  fun c => if c = [1] then some ["A", "b"] else none

/-- The fan-out run starts with one candidate, empty staging, empty corpus. -/
def fanState : PipeState := ⟨[fanSrc], [], []⟩

/-- C1 counterexample: a run on a single candidate that declares tags
`A` and `b` and passes validation ends with the corpus holding two distinct
files (`a/f.yaml` and `b/f.yaml`) with identical content, hence the same
fingerprint - the claimed invariant fails precisely in the multi-tag case the
claim includes. -/
theorem corpus_duplicate_fingerprint_after_fanout :
    ∃ e1 e2 : Entry,
      e1 ∈ (runPipeline demoHash fanTags checkAllOk fanState).corpus ∧
      e2 ∈ (runPipeline demoHash fanTags checkAllOk fanState).corpus ∧
      e1 ≠ e2 ∧ demoHash e1.content = demoHash e2.content := by
  refine ⟨⟨["a"], "f.yaml", [1]⟩, ⟨["b"], "f.yaml", [1]⟩, by decide, by decide, by decide, rfl⟩

/-- C1 (amended): the dedup invariant holds per tag directory, not globally:
two distinct files that the run migrates into the same tag directory always
have distinct fingerprints; duplicate fingerprints can only appear across
different tag directories, via multi-tag fan-out of one candidate. -/
theorem migrated_same_dir_distinct_fingerprints
    (hash : Content → Nat) (tags : Content → Option (List String))
    (check : Content → CheckResult) (s0 : PipeState) (e1 e2 : Entry)
    (h1 : e1 ∈ enterpriseValidation check (dynamicCategorization hash tags s0.corpus
      (enterpriseDeduplication hash s0.clone)))
    (h2 : e2 ∈ enterpriseValidation check (dynamicCategorization hash tags s0.corpus
      (enterpriseDeduplication hash s0.clone)))
    (hdir : e1.dir = e2.dir) (hne : e1 ≠ e2) :
    hash e1.content ≠ hash e2.content := by
  have hnd : keysNodup (dynamicCategorization hash tags s0.corpus
      (enterpriseDeduplication hash s0.clone)) :=
    keysNodup_dynamicCategorization hash tags _ _
  rw [mem_enterpriseValidation_iff hnd] at h1 h2
  have hname : e1.name ≠ e2.name := by
    intro hEq
    exact hne (List.inj_on_of_nodup_map hnd h1.1 h2.1
      (by unfold entryKey; rw [hdir, hEq]))
  rcases dynamicCategorization_src h1.1 with ⟨c1, hc1, _, _, _, _, _, rfl⟩
  rcases dynamicCategorization_src h2.1 with ⟨c2, hc2, _, _, _, _, _, rfl⟩
  have hcne : c1 ≠ c2 := by
    intro hEq
    exact hname (by rw [hEq])
  exact (ruleFiles_dedup_pairwise hash s0.clone).forall (hash_ne_symm hash) hc1 hc2 hcne

/-- Tag extraction for the same-directory witness scenario. -/
def sameDirTags : Content → Option (List String)
  | [1] => some ["a"]
  | [2] => some ["a"]
  | _ => none

/-- Two distinct-content candidates that both land in tag directory `a`. -/
def sameDirState : PipeState :=
  ⟨[⟨"r/x.yml", "x.yml", [1]⟩, ⟨"r/y.yml", "y.yml", [2]⟩], [], []⟩

/-- Witness for the amended C1 theorem at a concrete run with two files in
one tag directory. -/
theorem migrated_same_dir_distinct_fingerprints_witness :
    demoHash [1] ≠ demoHash [2] :=
  migrated_same_dir_distinct_fingerprints demoHash sameDirTags checkAllOk sameDirState
    ⟨["a"], "x.yml", [1]⟩ ⟨["a"], "y.yml", [2]⟩ (by decide) (by decide) rfl (by decide)

/-! ## Claim C2 -/

/-- C2 (confirmed): a candidate that declares tags `a` and `b`, is new to the
corpus, does not collide with another candidate's filename, and whose content
the checker accepts, ends the run present in the corpus under both
lower-cased tag directories; a candidate that declares no tags produces no
staging entry with its fingerprint, and (being new to the pre-run corpus) no
file with its fingerprint exists anywhere in the final corpus. -/
theorem fanout_both_tags_and_empty_tags_absent
    (hash : Content → Nat) (tags : Content → Option (List String))
    (check : Content → CheckResult) (s0 : PipeState) (c c' : SrcFile) (a b : String)
    (hnames : ((ruleFiles (enterpriseDeduplication hash s0.clone)).map SrcFile.name).Nodup)
    (hc : c ∈ ruleFiles (enterpriseDeduplication hash s0.clone))
    (htags : tags c.content = some [a, b])
    (hnew : hash c.content ∉ existingHashes hash s0.corpus)
    (hok : check c.content = CheckResult.ok)
    (hc' : c' ∈ ruleFiles (enterpriseDeduplication hash s0.clone))
    (htags' : tags c'.content = some [])
    (hnew' : hash c'.content ∉ existingHashes hash s0.corpus) :
    ((⟨[lowerStr a], c.name, c.content⟩ : Entry) ∈ (runPipeline hash tags check s0).corpus
      ∧ (⟨[lowerStr b], c.name, c.content⟩ : Entry) ∈ (runPipeline hash tags check s0).corpus)
    ∧ (∀ e ∈ dynamicCategorization hash tags s0.corpus (enterpriseDeduplication hash s0.clone),
        hash e.content ≠ hash c'.content)
    ∧ (∀ e ∈ (runPipeline hash tags check s0).corpus,
        hash e.content ≠ hash c'.content) := by
  have hndstage : keysNodup (dynamicCategorization hash tags s0.corpus
      (enterpriseDeduplication hash s0.clone)) :=
    keysNodup_dynamicCategorization hash tags _ _
  have hndval : keysNodup (enterpriseValidation check
      (dynamicCategorization hash tags s0.corpus (enterpriseDeduplication hash s0.clone))) :=
    keysNodup_enterpriseValidation hndstage
  have hstaged : ∀ t ∈ [a, b], (⟨[lowerStr t], c.name, c.content⟩ : Entry) ∈
      dynamicCategorization hash tags s0.corpus (enterpriseDeduplication hash s0.clone) :=
    fun t ht => dynamicCategorization_stages hc hnames hnew htags ht
  have hincorpus : ∀ t ∈ [a, b], (⟨[lowerStr t], c.name, c.content⟩ : Entry) ∈
      (runPipeline hash tags check s0).corpus := by
    intro t ht
    rw [runPipeline_corpus]
    refine mem_foldl_fsPut_of_keysNodup hndval ?_ s0.corpus
    rw [mem_enterpriseValidation_iff hndstage]
    exact ⟨hstaged t ht, hok⟩
  have hstagefree : ∀ e ∈ dynamicCategorization hash tags s0.corpus
      (enterpriseDeduplication hash s0.clone), hash e.content ≠ hash c'.content := by
    intro e he hEq
    rcases dynamicCategorization_src he with ⟨c2, hc2, _, ts, hts, t, htmem, rfl⟩
    by_cases hcc : c2 = c'
    · subst hcc
      rw [hts] at htags'
      cases htags'
      cases htmem
    · exact (ruleFiles_dedup_pairwise hash s0.clone).forall (hash_ne_symm hash)
        hc2 hc' hcc hEq
  refine ⟨⟨hincorpus a (by simp), hincorpus b (by simp)⟩, hstagefree, ?_⟩
  intro e he hEq
  rw [runPipeline_corpus] at he
  rcases mem_of_mem_foldl_fsPut he with he | he
  · exact hnew' (hEq ▸ List.mem_map.mpr ⟨e, he, rfl⟩)
  · rw [mem_enterpriseValidation_iff hndstage] at he
    exact hstagefree e he.1 hEq

/-- Tag extraction for the C2 witness: `[1]` declares `A` and `b`; `[3]`
declares no tags. -/
def fanoutWitTags : Content → Option (List String)
  | [1] => some ["A", "b"]
  | [3] => some []
  | _ => none

/-- Two candidates for the C2 witness: a two-tag one and a no-tag one. -/
def fanoutWitState : PipeState :=
  ⟨[⟨"r/f.yaml", "f.yaml", [1]⟩, ⟨"r/g.yaml", "g.yaml", [3]⟩], [], []⟩

/-- Witness for the C2 theorem at a concrete two-candidate run. -/
theorem fanout_both_tags_and_empty_tags_absent_witness :
    (((⟨[lowerStr "A"], "f.yaml", [1]⟩ : Entry) ∈
        (runPipeline demoHash fanoutWitTags checkAllOk fanoutWitState).corpus
      ∧ (⟨[lowerStr "b"], "f.yaml", [1]⟩ : Entry) ∈
        (runPipeline demoHash fanoutWitTags checkAllOk fanoutWitState).corpus)
    ∧ (∀ e ∈ dynamicCategorization demoHash fanoutWitTags
          fanoutWitState.corpus (enterpriseDeduplication demoHash fanoutWitState.clone),
        demoHash e.content ≠ demoHash ([3] : Content))
    ∧ (∀ e ∈ (runPipeline demoHash fanoutWitTags checkAllOk fanoutWitState).corpus,
        demoHash e.content ≠ demoHash ([3] : Content))) :=
  fanout_both_tags_and_empty_tags_absent demoHash fanoutWitTags checkAllOk fanoutWitState
    ⟨"r/f.yaml", "f.yaml", [1]⟩ ⟨"r/g.yaml", "g.yaml", [3]⟩ "A" "b"
    (by decide) (by decide) rfl (by decide) rfl (by decide) rfl (by decide)

/-! ## Claim C3 -/

/-- C3 (confirmed): the checker runs with a 120-second timeout; over a
well-formed staging tree, validation keeps exactly the files whose check
exits zero - any non-zero exit, timeout, or invocation error deletes the file
from staging - and consequently every file migration adds to the corpus (as
opposed to the files already there) was accepted by the checker. -/
theorem validation_gate_timeout_and_migration
    (check : Content → CheckResult) (staging corpus : List Entry)
    (hnd : keysNodup staging) :
    enterpriseValidation check staging
        = staging.filter (fun e => decide (check e.content = CheckResult.ok))
    ∧ (∀ e ∈ staging, check e.content ≠ CheckResult.ok →
        e ∉ enterpriseValidation check staging)
    ∧ (∀ e ∈ migrateValidFiles corpus (enterpriseValidation check staging),
        e ∈ corpus ∨ check e.content = CheckResult.ok)
    ∧ VALIDATE_TIMEOUT_SECONDS = 120 := by
  refine ⟨enterpriseValidation_eq_filter hnd, ?_, ?_, rfl⟩
  · intro e _ hbad hmem
    exact hbad ((mem_enterpriseValidation_iff hnd e).mp hmem).2
  · intro e he
    rcases mem_of_mem_foldl_fsPut he with he | he
    · exact Or.inl he
    · exact Or.inr ((mem_enterpriseValidation_iff hnd e).mp he).2

/-- A checker for the C3 witness: content `[1]` is accepted, `[2]` exits
non-zero. -/
def gateCheck : Content → CheckResult
  | [1] => CheckResult.ok
  | _ => CheckResult.nonzeroExit

/-- A two-file staging tree for the C3 witness. -/
def gateStaging : List Entry := [⟨["a"], "x.yml", [1]⟩, ⟨["a"], "y.yml", [2]⟩]

/-- Witness for the C3 theorem at a concrete staging tree with one accepted
and one rejected file. -/
theorem validation_gate_timeout_and_migration_witness :
    enterpriseValidation gateCheck gateStaging
        = gateStaging.filter (fun e => decide (gateCheck e.content = CheckResult.ok))
    ∧ (∀ e ∈ gateStaging, gateCheck e.content ≠ CheckResult.ok →
        e ∉ enterpriseValidation gateCheck gateStaging)
    ∧ (∀ e ∈ migrateValidFiles [] (enterpriseValidation gateCheck gateStaging),
        e ∈ ([] : List Entry) ∨ gateCheck e.content = CheckResult.ok)
    ∧ VALIDATE_TIMEOUT_SECONDS = 120 :=
  validation_gate_timeout_and_migration gateCheck gateStaging []
    (by unfold keysNodup; decide)

/-! ## Claim C5 -/

/-- A pre-run corpus holding one file without a rule extension. -/
def strayState : PipeState := ⟨[], [], [⟨["docs"], "readme.txt", [9]⟩]⟩

/-- C5 counterexample: at the end of a run whose corpus holds a file without
a `.yml`/`.yaml` extension, that corpus file is omitted from the regenerated
index, while the printed total still counts it - the index does not enumerate
every file of the corpus tree. -/
theorem index_omits_corpus_file :
    (⟨["docs"], "readme.txt", [9]⟩ : Entry) ∈
        (runPipeline demoHash fanTags checkAllOk strayState).corpus
    ∧ generateIndex ((runPipeline demoHash fanTags checkAllOk strayState).corpus) = []
    ∧ totalCount ((runPipeline demoHash fanTags checkAllOk strayState).corpus) = 1 := by
  refine ⟨by decide, by decide, by decide⟩

/-- C5 (amended): the regenerated index enumerates exactly the rule files
(`.yml`/`.yaml`) of the corpus tree, one corpus-relative path per line, and
the printed total counts all corpus files: it equals the index line count
plus the number of corpus files without a rule extension. -/
theorem index_exactly_rule_files_and_count (corpus : List Entry) :
    (∀ p : List String, p ∈ generateIndex corpus ↔
        ∃ e ∈ corpus, ruleExt e.name = true ∧ e.dir ++ [e.name] = p)
    ∧ totalCount corpus = (generateIndex corpus).length
        + (corpus.filter (fun e => !ruleExt e.name)).length := by
  constructor
  · intro p
    constructor
    · intro hp
      rcases List.mem_filterMap.mp hp with ⟨e, he, hfe⟩
      by_cases hr : ruleExt e.name = true
      · rw [if_pos hr] at hfe
        exact ⟨e, he, hr, Option.some.inj hfe⟩
      · rw [if_neg hr] at hfe
        cases hfe
    · intro ⟨e, he, hr, hpe⟩
      refine List.mem_filterMap.mpr ⟨e, he, ?_⟩
      rw [if_pos hr, hpe]
  · induction corpus with
    | nil => simp [totalCount, generateIndex]
    | cons e rest ih =>
        by_cases hr : ruleExt e.name = true <;>
          simp [totalCount, generateIndex, List.filterMap_cons, List.filter_cons, hr]
            at ih ⊢ <;>
          omega

/-! ## Claim C6 -/

/-- C6 (confirmed): an interrupt after any number of completed stages leaves
the process, before exit, with an empty staging tree, with the corpus and the
working copies exactly as the interrupted run had left them (the handler
touches neither), and a non-zero exit status - while normal completion exits
zero. -/
theorem interrupt_clears_staging_only_and_exit_codes
    (hash : Content → Nat) (tags : Content → Option (List String))
    (check : Content → CheckResult) (s0 : PipeState) (k : Nat) :
    (mainRun hash tags check s0 (some k)).1.staging = []
    ∧ (mainRun hash tags check s0 (some k)).1.corpus = (runUpTo hash tags check s0 k).corpus
    ∧ (mainRun hash tags check s0 (some k)).1.clone = (runUpTo hash tags check s0 k).clone
    ∧ (mainRun hash tags check s0 (some k)).2 = 1
    ∧ (mainRun hash tags check s0 (some k)).2 ≠ 0
    ∧ (mainRun hash tags check s0 none).2 = 0 :=
  ⟨rfl, rfl, rfl, rfl, Nat.one_ne_zero, rfl⟩

/-! ## Claim C7 -/

theorem asyncGitOpsLoop_zero (outcome : Nat → AttemptOut) (i : Nat) (acc : List Nat) :
    asyncGitOpsLoop outcome i 0 acc = ⟨3, acc, false⟩ := rfl

theorem asyncGitOpsLoop_succ_zero (outcome : Nat → AttemptOut) {i : Nat}
    (fuel : Nat) (acc : List Nat) (hout : outcome i = AttemptOut.exitCode 0) :
    asyncGitOpsLoop outcome i (fuel + 1) acc = ⟨i + 1, acc, true⟩ := by
  show (match outcome i with
    | AttemptOut.exitCode rc =>
        if rc = 0 then (⟨i + 1, acc, true⟩ : GitTrace)
        else asyncGitOpsLoop outcome (i + 1) fuel (acc ++ [2 ^ i])
    | AttemptOut.raised => asyncGitOpsLoop outcome (i + 1) fuel acc) = ⟨i + 1, acc, true⟩
  rw [hout]
  exact if_pos rfl

theorem asyncGitOpsLoop_succ_fail (outcome : Nat → AttemptOut) {i : Nat} {rc : Int}
    (fuel : Nat) (acc : List Nat) (hout : outcome i = AttemptOut.exitCode rc)
    (hrc : rc ≠ 0) :
    asyncGitOpsLoop outcome i (fuel + 1) acc
      = asyncGitOpsLoop outcome (i + 1) fuel (acc ++ [2 ^ i]) := by
  show (match outcome i with
    | AttemptOut.exitCode rc =>
        if rc = 0 then (⟨i + 1, acc, true⟩ : GitTrace)
        else asyncGitOpsLoop outcome (i + 1) fuel (acc ++ [2 ^ i])
    | AttemptOut.raised => asyncGitOpsLoop outcome (i + 1) fuel acc)
      = asyncGitOpsLoop outcome (i + 1) fuel (acc ++ [2 ^ i])
  rw [hout]
  exact if_neg hrc

theorem asyncGitOpsLoop_succ_raised (outcome : Nat → AttemptOut) {i : Nat}
    (fuel : Nat) (acc : List Nat) (hout : outcome i = AttemptOut.raised) :
    asyncGitOpsLoop outcome i (fuel + 1) acc = asyncGitOpsLoop outcome (i + 1) fuel acc := by
  show (match outcome i with
    | AttemptOut.exitCode rc =>
        if rc = 0 then (⟨i + 1, acc, true⟩ : GitTrace)
        else asyncGitOpsLoop outcome (i + 1) fuel (acc ++ [2 ^ i])
    | AttemptOut.raised => asyncGitOpsLoop outcome (i + 1) fuel acc)
      = asyncGitOpsLoop outcome (i + 1) fuel acc
  rw [hout]

/-- Full characterization of the retry loop from any loop index `i` with
`fuel` iterations left (`fuel + i = 3`). -/
theorem asyncGitOpsLoop_spec (outcome : Nat → AttemptOut) :
    ∀ (fuel i : Nat) (acc : List Nat), fuel + i = 3 →
      (i ≤ (asyncGitOpsLoop outcome i fuel acc).attempts
        ∧ (asyncGitOpsLoop outcome i fuel acc).attempts ≤ 3)
      ∧ ((asyncGitOpsLoop outcome i fuel acc).success = true →
          outcome ((asyncGitOpsLoop outcome i fuel acc).attempts - 1) = AttemptOut.exitCode 0
          ∧ ∀ j, i ≤ j → j < (asyncGitOpsLoop outcome i fuel acc).attempts - 1 →
              outcome j ≠ AttemptOut.exitCode 0)
      ∧ ((asyncGitOpsLoop outcome i fuel acc).success = false →
          (asyncGitOpsLoop outcome i fuel acc).attempts = 3
          ∧ ∀ j, i ≤ j → j < 3 → outcome j ≠ AttemptOut.exitCode 0)
      ∧ (asyncGitOpsLoop outcome i fuel acc).sleeps
          = acc ++ (List.range' i ((asyncGitOpsLoop outcome i fuel acc).attempts - i)).filterMap
              (sleepOf outcome) := by
  intro fuel
  induction fuel with
  | zero =>
      intro i acc hsum
      rw [Nat.zero_add] at hsum
      subst hsum
      rw [asyncGitOpsLoop_zero]
      refine ⟨⟨Nat.le_refl 3, Nat.le_refl 3⟩, ?_, ?_, ?_⟩
      · intro h; cases h
      · intro _
        exact ⟨rfl, fun j hj hj3 => absurd (Nat.lt_of_le_of_lt hj hj3) (Nat.lt_irrefl 3)⟩
      · show acc = acc ++ (List.range' 3 (3 - 3)).filterMap (sleepOf outcome)
        simp
  | succ fuel ih =>
      intro i acc hsum
      cases hout : outcome i with
      | exitCode rc =>
          by_cases hrc : rc = 0
          · subst hrc
            rw [asyncGitOpsLoop_succ_zero outcome fuel acc hout]
            refine ⟨⟨Nat.le_succ i, by show i + 1 ≤ 3; omega⟩, ?_, ?_, ?_⟩
            · intro _
              refine ⟨?_, ?_⟩
              · show outcome (i + 1 - 1) = AttemptOut.exitCode 0
                rw [Nat.add_sub_cancel]
                exact hout
              · intro j hj hj2
                have hj2' : j < i + 1 - 1 := hj2
                rw [Nat.add_sub_cancel] at hj2'
                exact absurd (Nat.lt_of_le_of_lt hj hj2') (Nat.lt_irrefl i)
            · intro h; cases h
            · show acc = acc ++ (List.range' i (i + 1 - i)).filterMap (sleepOf outcome)
              rw [show i + 1 - i = 1 from by omega, List.range'_one, List.filterMap_cons]
              have hsleep : sleepOf outcome i = none := by
                unfold sleepOf
                rw [hout]
                exact if_pos rfl
              rw [hsleep]
              simp
          · rw [asyncGitOpsLoop_succ_fail outcome fuel acc hout hrc]
            have hrec := ih (i + 1) (acc ++ [2 ^ i]) (by omega)
            refine ⟨⟨by have := hrec.1.1; omega, hrec.1.2⟩, ?_, ?_, ?_⟩
            · intro hs
              rcases hrec.2.1 hs with ⟨h1, h2⟩
              refine ⟨h1, ?_⟩
              intro j hj hj2
              rcases Nat.eq_or_lt_of_le hj with rfl | hj
              · rw [hout]
                intro hcon
                cases hcon
                exact hrc rfl
              · exact h2 j hj hj2
            · intro hs
              rcases hrec.2.2.1 hs with ⟨h1, h2⟩
              refine ⟨h1, ?_⟩
              intro j hj hj2
              rcases Nat.eq_or_lt_of_le hj with rfl | hj
              · rw [hout]
                intro hcon
                cases hcon
                exact hrc rfl
              · exact h2 j hj hj2
            · rw [hrec.2.2.2]
              have hlt : i + 1 ≤ (asyncGitOpsLoop outcome (i + 1) fuel (acc ++ [2 ^ i])).attempts :=
                hrec.1.1
              have hsplit : (asyncGitOpsLoop outcome (i + 1) fuel (acc ++ [2 ^ i])).attempts - i
                  = ((asyncGitOpsLoop outcome (i + 1) fuel (acc ++ [2 ^ i])).attempts - (i + 1)) + 1 := by
                omega
              rw [hsplit, List.range'_succ, List.filterMap_cons]
              have hsleep : sleepOf outcome i = some (2 ^ i) := by
                unfold sleepOf
                rw [hout]
                exact if_neg hrc
              rw [hsleep, List.append_assoc, List.singleton_append]
      | raised =>
          rw [asyncGitOpsLoop_succ_raised outcome fuel acc hout]
          have hrec := ih (i + 1) acc (by omega)
          refine ⟨⟨by have := hrec.1.1; omega, hrec.1.2⟩, ?_, ?_, ?_⟩
          · intro hs
            rcases hrec.2.1 hs with ⟨h1, h2⟩
            refine ⟨h1, ?_⟩
            intro j hj hj2
            rcases Nat.eq_or_lt_of_le hj with rfl | hj
            · rw [hout]; intro hcon; cases hcon
            · exact h2 j hj hj2
          · intro hs
            rcases hrec.2.2.1 hs with ⟨h1, h2⟩
            refine ⟨h1, ?_⟩
            intro j hj hj2
            rcases Nat.eq_or_lt_of_le hj with rfl | hj
            · rw [hout]; intro hcon; cases hcon
            · exact h2 j hj hj2
          · rw [hrec.2.2.2]
            have hlt : i + 1 ≤ (asyncGitOpsLoop outcome (i + 1) fuel acc).attempts := hrec.1.1
            have hsplit : (asyncGitOpsLoop outcome (i + 1) fuel acc).attempts - i
                = ((asyncGitOpsLoop outcome (i + 1) fuel acc).attempts - (i + 1)) + 1 := by
              omega
            rw [hsplit, List.range'_succ, List.filterMap_cons]
            have hsleep : sleepOf outcome i = none := by
              unfold sleepOf
              rw [hout]
            rw [hsleep]

/-- An outcome trace whose first attempt raises and whose later attempts
return a non-zero exit code. -/
def raisedThenFails : Nat → AttemptOut
  | 0 => AttemptOut.raised
  | _ => AttemptOut.exitCode 1

/-- C7 counterexample: when the first attempt raises an invocation error, the
loop retries immediately - all three attempts fail, yet the backoff sleeps
are `[2, 4]`, not the claimed `1s, 2s, 4s` schedule of one sleep after each
failed attempt. -/
theorem retry_sleep_schedule_deviates :
    (asyncGitOps raisedThenFails).success = false
    ∧ (asyncGitOps raisedThenFails).attempts = 3
    ∧ (asyncGitOps raisedThenFails).sleeps = [2, 4]
    ∧ (asyncGitOps raisedThenFails).sleeps ≠ [1, 2, 4] := by
  refine ⟨by decide, by decide, by decide, by decide⟩

/-- C7 (amended): each source is attempted at most 3 times; the loop stops at
the first attempt whose exit code is zero, every earlier attempt having been
unsuccessful; when all attempts fail the sync is abandoned with a normal
return (no exception escapes) after exactly 3 attempts none of which exited
zero; the sleeps are exactly `2 ^ i` seconds after each attempt at loop index
`i` that completed with a non-zero exit code (`1s, 2s, 4s` when all three
attempts exit non-zero) - an attempt that raises is retried without a sleep;
and the operation is an update when the working copy exists, a clone
otherwise. -/
theorem git_retry_policy (outcome : Nat → AttemptOut) :
    (asyncGitOps outcome).attempts ≤ 3
    ∧ ((asyncGitOps outcome).success = true →
        outcome ((asyncGitOps outcome).attempts - 1) = AttemptOut.exitCode 0
        ∧ ∀ j < (asyncGitOps outcome).attempts - 1, outcome j ≠ AttemptOut.exitCode 0)
    ∧ ((asyncGitOps outcome).success = false →
        (asyncGitOps outcome).attempts = 3 ∧ ∀ j < 3, outcome j ≠ AttemptOut.exitCode 0)
    ∧ (asyncGitOps outcome).sleeps
        = (List.range (asyncGitOps outcome).attempts).filterMap (sleepOf outcome)
    ∧ gitOpFor true = GitCmd.pull ∧ gitOpFor false = GitCmd.clone := by
  have h := asyncGitOpsLoop_spec outcome 3 0 [] rfl
  refine ⟨h.1.2, ?_, ?_, ?_, rfl, rfl⟩
  · intro hs
    rcases h.2.1 hs with ⟨h1, h2⟩
    exact ⟨h1, fun j hj => h2 j (Nat.zero_le j) hj⟩
  · intro hs
    rcases h.2.2.1 hs with ⟨h1, h2⟩
    exact ⟨h1, fun j hj => h2 j (Nat.zero_le j) hj⟩
  · have h4 := h.2.2.2
    rw [List.range_eq_range']
    simpa using h4

/-- An outcome trace where every attempt exits with code 1. -/
def allAttemptsFail : Nat → AttemptOut := fun _ => AttemptOut.exitCode 1

/-- Witness for the amended C7 theorem: with three non-zero exits the loop
runs 3 attempts and sleeps 1s, 2s, 4s. -/
theorem git_retry_policy_witness :
    (asyncGitOps allAttemptsFail).attempts = 3
    ∧ (asyncGitOps allAttemptsFail).sleeps = [1, 2, 4] :=
  ⟨((git_retry_policy allAttemptsFail).2.2.1 (by decide)).1, by decide⟩

/-! ## Claim C8 -/

/-- C8 (confirmed): the sync operations are partitioned into consecutive
batches of `2 * P` (`P` the configured sync parallelism): the batches
concatenate back to the original task list in order, every batch - i.e. every
set of simultaneously dispatched operations, since a batch is gathered to
completion before the next is dispatched - has at most `2 * P` operations,
and every batch except possibly the last has exactly `2 * P`. -/
theorem sync_batching_bounds (P : Nat) (tasks : List String) (hP : 0 < P) :
    (syncBatches P tasks).flatten = tasks
    ∧ (∀ b ∈ syncBatches P tasks, b.length ≤ 2 * P)
    ∧ (∀ b ∈ (syncBatches P tasks).dropLast, b.length = 2 * P) := by
  have hsz : syncBatchSize P = 2 * P := by
    unfold syncBatchSize
    omega
  have hpos : 0 < syncBatchSize P := by omega
  refine ⟨chunked_flatten _ _, ?_, ?_⟩
  · intro b hb
    have h := chunked_length_le hpos tasks b hb
    omega
  · intro b hb
    have h := chunked_full hpos tasks b hb
    omega

/-- A concrete source list for the C8 witness: 19 URLs with `P = 8` give one
full batch of 16 and a final partial batch of 3. -/
def demoUrls : List String :=
  ["u01", "u02", "u03", "u04", "u05", "u06", "u07", "u08", "u09", "u10",
   "u11", "u12", "u13", "u14", "u15", "u16", "u17", "u18", "u19"]

/-- Witness for the C8 theorem at the default parallelism `P = 8`. -/
theorem sync_batching_bounds_witness :
    (syncBatches 8 demoUrls).flatten = demoUrls
    ∧ (∀ b ∈ syncBatches 8 demoUrls, b.length ≤ 2 * 8)
    ∧ (∀ b ∈ (syncBatches 8 demoUrls).dropLast, b.length = 2 * 8) :=
  sync_batching_bounds 8 demoUrls (by decide)

/-! ## Claim C9 -/

/-- A hash oracle that fails on one specific file and succeeds elsewhere. -/
def badHashE : SrcFile → Except String Nat :=
  fun f => if f.name = "bad.yml" then Except.error "unreadable" else Except.ok (demoHash f.content)

/-- The file whose hashing fails. -/
def badFile : SrcFile := ⟨"r/bad.yml", "bad.yml", [7]⟩

/-- C9 counterexample: a hash failure on a single file during deduplication is
not skipped - `future.result()` re-raises it and, `__main__` catching only
`KeyboardInterrupt`, the stage and the run abort, contrary to the claim that
no per-file hash failure propagates out of its stage. -/
theorem hash_failure_aborts_dedup :
    enterpriseDeduplicationE badHashE [badFile] = Except.error "unreadable"
    ∧ exceptOk (enterpriseDeduplicationE badHashE [badFile]) = false := by
  refine ⟨rfl, rfl⟩

theorem mem_foldl_condPut_keep {moveOk : Entry → Bool} {fs : List Entry} {e : Entry}
    {l : List Entry} (he : e ∈ fs) (h : ∀ x ∈ l, entryKey x ≠ entryKey e) :
    e ∈ l.foldl (fun c x => if moveOk x then fsPut c x else c) fs := by
  induction l generalizing fs with
  | nil => exact he
  | cons x xs ih =>
      rw [List.foldl_cons]
      refine ih ?_ (fun y hy => h y (List.mem_cons_of_mem x hy))
      by_cases hmv : moveOk x = true
      · rw [if_pos hmv]
        exact mem_fsPut_of_mem he (Or.inr (h x (by simp)))
      · rw [if_neg hmv]
        exact he

/-- The dedup fold with a fallible hash either aborts with the first hash
error, or completes exactly when every rule file hashed successfully. -/
theorem foldlM_dedupStepE_ok_iff {hashE : SrcFile → Except String Nat} :
    ∀ (l : List SrcFile) (acc : List Nat × List SrcFile),
      exceptOk (l.foldlM (dedupStepE hashE) acc) = true ↔
        ∀ f ∈ l, ruleExt f.name = true → exceptOk (hashE f) = true := by
  intro l
  induction l with
  | nil =>
      intro acc
      constructor
      · intro _ f hf
        cases hf
      · intro _
        rfl
  | cons f fs ih =>
      intro acc
      rw [List.foldlM_cons]
      by_cases hrule : ruleExt f.name = true
      · cases hE : hashE f with
        | error msg =>
            have hstep : dedupStepE hashE acc f = Except.error msg := by
              unfold dedupStepE
              rw [if_pos hrule, hE]
            rw [hstep]
            constructor
            · intro h; cases h
            · intro h
              have := h f (by simp) hrule
              rw [hE] at this
              cases this
        | ok hv =>
            have hstep : dedupStepE hashE acc f
                = if hv ∈ acc.1 then Except.ok acc
                  else Except.ok (hv :: acc.1, acc.2 ++ [f]) := by
              unfold dedupStepE
              rw [if_pos hrule, hE]
            rw [hstep]
            by_cases hmem : hv ∈ acc.1
            · rw [if_pos hmem]
              show exceptOk (fs.foldlM (dedupStepE hashE) acc) = true ↔ _
              rw [ih acc]
              constructor
              · intro h g hg hgr
                rcases List.mem_cons.mp hg with rfl | hg
                · rw [hE]; rfl
                · exact h g hg hgr
              · intro h g hg hgr
                exact h g (List.mem_cons_of_mem f hg) hgr
            · rw [if_neg hmem]
              show exceptOk (fs.foldlM (dedupStepE hashE) (hv :: acc.1, acc.2 ++ [f])) = true ↔ _
              rw [ih (hv :: acc.1, acc.2 ++ [f])]
              constructor
              · intro h g hg hgr
                rcases List.mem_cons.mp hg with rfl | hg
                · rw [hE]; rfl
                · exact h g hg hgr
              · intro h g hg hgr
                exact h g (List.mem_cons_of_mem f hg) hgr
      · have hstep : dedupStepE hashE acc f = Except.ok (acc.1, acc.2 ++ [f]) := by
          unfold dedupStepE
          rw [if_neg hrule]
        rw [hstep]
        show exceptOk (fs.foldlM (dedupStepE hashE) (acc.1, acc.2 ++ [f])) = true ↔ _
        rw [ih (acc.1, acc.2 ++ [f])]
        constructor
        · intro h g hg hgr
          rcases List.mem_cons.mp hg with rfl | hg
          · exact absurd hgr hrule
          · exact h g hg hgr
        · intro h g hg hgr
          exact h g (List.mem_cons_of_mem f hg) hgr

/-- C9 (amended): a failed move on a single staged file is silently skipped -
the move future's result is never read - and every other staged file is still
migrated, the run continuing; but a failed hash on any rule file during the
deduplication stage is re-raised by `future.result()` and aborts the stage
(and the run): the stage completes without raising exactly when every rule
file hashes successfully. -/
theorem move_failures_isolated_hash_failures_fatal
    (hashE : SrcFile → Except String Nat) (files : List SrcFile)
    (moveOk : Entry → Bool) (corpus staging : List Entry) (e : Entry)
    (hnd : keysNodup staging) (he : e ∈ staging) (hmv : moveOk e = true) :
    e ∈ migrateValidFilesF moveOk corpus staging
    ∧ (exceptOk (enterpriseDeduplicationE hashE files) = true
        ↔ ∀ f ∈ files, ruleExt f.name = true → exceptOk (hashE f) = true) := by
  constructor
  · rcases List.append_of_mem he with ⟨l₁, l₂, rfl⟩
    unfold migrateValidFilesF
    rw [List.foldl_append, List.foldl_cons, if_pos hmv]
    exact mem_foldl_condPut_keep (mem_fsPut_self _ e)
      (fun x hx => map_nodup_notin_suffix hnd x hx)
  · unfold enterpriseDeduplicationE
    cases hfold : files.foldlM (dedupStepE hashE) ([], []) with
    | error msg =>
        have h := @foldlM_dedupStepE_ok_iff hashE files ([], [])
        rw [hfold] at h
        constructor
        · intro hcon; cases hcon
        · intro hall
          have := h.mpr hall
          cases this
    | ok acc =>
        have h := @foldlM_dedupStepE_ok_iff hashE files ([], [])
        rw [hfold] at h
        simpa [exceptOk] using h

/-- A move oracle failing on one file for the C9 witness. -/
def demoMoveOk : Entry → Bool := fun e => e.name ≠ "fails.yml"

/-- The staging tree for the C9 witness: one movable file, one whose move
fails. -/
def moveStaging : List Entry := [⟨["a"], "good.yml", [1]⟩, ⟨["a"], "fails.yml", [2]⟩]

/-- Witness for the amended C9 theorem at concrete inputs. -/
theorem move_failures_isolated_hash_failures_fatal_witness :
    (⟨["a"], "good.yml", [1]⟩ : Entry) ∈ migrateValidFilesF demoMoveOk [] moveStaging
    ∧ (exceptOk (enterpriseDeduplicationE badHashE [badFile]) = true
        ↔ ∀ f ∈ [badFile], ruleExt f.name = true → exceptOk (badHashE f) = true) :=
  move_failures_isolated_hash_failures_fatal badHashE [badFile] demoMoveOk [] moveStaging
    ⟨["a"], "good.yml", [1]⟩ (by unfold keysNodup; decide) (by decide) (by decide)

/-! ## Claim C4 -/

/-- Tag extraction for the C4 counterexample: two distinct contents share the
tag `a`. -/
def colTags : Content → Option (List String)
  | [1] => some ["a"]
  | [2] => some ["a"]
  | _ => none

/-- Two candidates with the same filename, the same tag, and different
content. -/
def colState : PipeState :=
  ⟨[⟨"r1/f.yaml", "f.yaml", [1]⟩, ⟨"r2/f.yaml", "f.yaml", [2]⟩], [], []⟩

/-- C4 counterexample: with two candidates sharing filename and tag but not
content, the first run migrates one of them (`a/f.yaml` with content `[2]`);
the immediate second run - same sources, nothing new - finds the other
content missing from the corpus, re-stages it, and overwrites `a/f.yaml` with
content `[1]`: the corpus is changed by the second run, so the pipeline is
not idempotent as claimed. -/
theorem second_run_changes_corpus :
    (runPipeline demoHash colTags checkAllOk colState).corpus
        = [⟨["a"], "f.yaml", [2]⟩]
    ∧ (runPipeline demoHash colTags checkAllOk
          (runPipeline demoHash colTags checkAllOk colState)).corpus
        = [⟨["a"], "f.yaml", [1]⟩]
    ∧ (runPipeline demoHash colTags checkAllOk
          (runPipeline demoHash colTags checkAllOk colState)).corpus
        ≠ (runPipeline demoHash colTags checkAllOk colState).corpus := by
  refine ⟨by decide, by decide, by decide⟩

/-- In a second categorization over the corpus produced by a first run from an
empty corpus, every staged file fails validation: a staged candidate is one
whose fingerprint is missing from the corpus, and - filenames being unique -
a checker-accepted candidate of the first run is in the corpus. -/
theorem second_run_staging_validates_empty
    (hash : Content → Nat) (tags : Content → Option (List String))
    (check : Content → CheckResult) (d : List SrcFile)
    (hnames : ((ruleFiles d).map SrcFile.name).Nodup) :
    enterpriseValidation check (dynamicCategorization hash tags
        (enterpriseValidation check (dynamicCategorization hash tags [] d)) d) = [] := by
  have hnd1 : keysNodup (dynamicCategorization hash tags [] d) :=
    keysNodup_dynamicCategorization hash tags [] d
  have hnd2 : keysNodup (dynamicCategorization hash tags
      (enterpriseValidation check (dynamicCategorization hash tags [] d)) d) :=
    keysNodup_dynamicCategorization hash tags _ d
  rw [enterpriseValidation_eq_filter hnd2]
  rw [List.filter_eq_nil_iff]
  intro e he hdec
  have hok : check e.content = CheckResult.ok := of_decide_eq_true hdec
  rcases dynamicCategorization_src he with ⟨c, hc, hnotin, ts, hts, t, ht, rfl⟩
  refine hnotin (List.mem_map.mpr ⟨⟨[lowerStr t], c.name, c.content⟩, ?_, rfl⟩)
  rw [mem_enterpriseValidation_iff hnd1]
  refine ⟨dynamicCategorization_stages hc hnames ?_ hts ht, hok⟩
  simp [existingHashes]

/-- A run whose pre-run corpus is empty ends with the corpus equal to the
validated staging tree. -/
theorem runPipeline_from_empty_corpus
    (hash : Content → Nat) (tags : Content → Option (List String))
    (check : Content → CheckResult) (clone0 : List SrcFile) (stag0 : List Entry) :
    runPipeline hash tags check ⟨clone0, stag0, []⟩
      = ⟨enterpriseDeduplication hash clone0, [],
          enterpriseValidation check (dynamicCategorization hash tags []
            (enterpriseDeduplication hash clone0))⟩ := by
  refine pipeState_ext rfl rfl ?_
  show migrateValidFiles [] (enterpriseValidation check (dynamicCategorization hash tags []
      (enterpriseDeduplication hash clone0)))
    = enterpriseValidation check (dynamicCategorization hash tags []
      (enterpriseDeduplication hash clone0))
  have hnd : keysNodup (enterpriseValidation check (dynamicCategorization hash tags []
      (enterpriseDeduplication hash clone0))) :=
    keysNodup_enterpriseValidation (keysNodup_dynamicCategorization hash tags _ _)
  calc migrateValidFiles [] (enterpriseValidation check (dynamicCategorization hash tags []
        (enterpriseDeduplication hash clone0)))
      = [] ++ enterpriseValidation check (dynamicCategorization hash tags []
          (enterpriseDeduplication hash clone0)) :=
        foldl_fsPut_of_append_keysNodup (by simpa using hnd)
    _ = enterpriseValidation check (dynamicCategorization hash tags []
          (enterpriseDeduplication hash clone0)) := by simp

/-- A second run over the state produced by a first run from an empty corpus
is a fixed point when candidate filenames are unique. -/
theorem runPipeline_fixpoint_aux
    (hash : Content → Nat) (tags : Content → Option (List String))
    (check : Content → CheckResult) (d : List SrcFile)
    (hd : enterpriseDeduplication hash d = d)
    (hnames : ((ruleFiles d).map SrcFile.name).Nodup) :
    runPipeline hash tags check
        ⟨d, [], enterpriseValidation check (dynamicCategorization hash tags [] d)⟩
      = ⟨d, [], enterpriseValidation check (dynamicCategorization hash tags [] d)⟩ := by
  refine pipeState_ext ?_ rfl ?_
  · show enterpriseDeduplication hash d = d
    exact hd
  · show migrateValidFiles (enterpriseValidation check (dynamicCategorization hash tags [] d))
        (enterpriseValidation check (dynamicCategorization hash tags
          (enterpriseValidation check (dynamicCategorization hash tags [] d))
          (enterpriseDeduplication hash d)))
      = enterpriseValidation check (dynamicCategorization hash tags [] d)
    rw [hd, second_run_staging_validates_empty hash tags check d hnames]
    rfl

/-- C4 (amended): when the first run starts from an empty corpus and no two
candidate rule files share a filename, an immediate second run with no new
remote content is a no-op: it reproduces the exact same pipeline state (the
categorizer skips every fingerprint already in the corpus and everything it
still stages fails validation again), and in particular the regenerated
corpus index is identical.  Without the filename-uniqueness proviso the
corpus itself can change across runs (see the counterexample). -/
theorem pipeline_idempotent_without_filename_collisions
    (hash : Content → Nat) (tags : Content → Option (List String))
    (check : Content → CheckResult) (s0 : PipeState)
    (hcorp : s0.corpus = [])
    (hnames : ((ruleFiles (enterpriseDeduplication hash s0.clone)).map SrcFile.name).Nodup) :
    runPipeline hash tags check (runPipeline hash tags check s0)
        = runPipeline hash tags check s0
    ∧ generateIndex (runPipeline hash tags check (runPipeline hash tags check s0)).corpus
        = generateIndex (runPipeline hash tags check s0).corpus := by
  rcases s0 with ⟨clone0, stag0, corp0⟩
  simp only [] at hcorp hnames
  subst hcorp
  have h1 := runPipeline_from_empty_corpus hash tags check clone0 stag0
  have h2 := runPipeline_fixpoint_aux hash tags check (enterpriseDeduplication hash clone0)
    (dedup_fixpoint hash clone0) hnames
  constructor
  · rw [h1]
    exact h2
  · rw [h1, h2]

/-- Tag extraction for the C4 witness: distinct filenames, distinct tags. -/
def idemTags : Content → Option (List String)
  | [1] => some ["a"]
  | [2] => some ["b"]
  | _ => none

/-- Two candidates with unique filenames for the C4 witness. -/
def idemState : PipeState :=
  ⟨[⟨"r/x.yml", "x.yml", [1]⟩, ⟨"r/y.yml", "y.yml", [2]⟩], [], []⟩

/-- Witness for the amended C4 theorem at a concrete collision-free run. -/
theorem pipeline_idempotent_without_filename_collisions_witness :
    runPipeline demoHash idemTags checkAllOk
        (runPipeline demoHash idemTags checkAllOk idemState)
      = runPipeline demoHash idemTags checkAllOk idemState
    ∧ generateIndex (runPipeline demoHash idemTags checkAllOk
          (runPipeline demoHash idemTags checkAllOk idemState)).corpus
      = generateIndex (runPipeline demoHash idemTags checkAllOk idemState).corpus :=
  pipeline_idempotent_without_filename_collisions demoHash idemTags checkAllOk idemState
    rfl (by decide)

end NucleiPipeline
